import Mathlib

set_option maxHeartbeats 1000000
set_option maxRecDepth 8000

/-!
Verification of the 2D Ising Metropolis Monte-Carlo simulator
(`src/ising.py`, `src/observables.py`, `src/run_simulation.py`).

The numpy spin array is embedded as an integer-valued function on (row,
column) pairs; the module-level numpy random generator is embedded as
explicit streams of draws (one Boolean stream for the lattice initialiser,
one stream of (site row, site column, uniform variate) triples for the
Metropolis sweeps).  Float arithmetic in the driver is exact on the values
the program actually produces (integer observables divided by integers), so
derived quantities live in ℚ; a numpy float64 division by zero produces a
non-finite value (inf or nan, with a runtime warning) rather than raising,
which is embedded as an `Option ℚ` whose `none` stands for the non-finite
results.
-/

namespace Ising

/-- A spin configuration: the L×L numpy array `self.spins` of `IsingModel`
(ising.py), modelled as an integer-valued function on (row, column) pairs.
Only the values at indices below the lattice side length are ever read by
the program. -/
abbrev Spins := ℕ → ℕ → ℤ

/-- All spins in the {+1, −1} range: the data-model invariant for lattices. -/
def pm (σ : Spins) : Prop := ∀ i j : ℕ, σ i j = 1 ∨ σ i j = -1

/-- Constructor `IsingModel.__init__` (ising.py): every cell is drawn from
{−1, +1} by `np.random.choice`; the random draws are modelled by an explicit
Boolean stream `rb`, one bit per cell. -/
def init (rb : ℕ → ℕ → Bool) : Spins := fun i j => if rb i j then 1 else -1

/-- The four-neighbour sum of `IsingModel._energy_change` (ising.py):
`spins[(i+1)%L, j] + spins[(i-1)%L, j] + spins[i, (j+1)%L] + spins[i, (j-1)%L]`.
Python's modulo of a negative number by positive `L` is non-negative, so for
`0 ≤ i < L` the Python index `(i - 1) % L` equals `(i + (L - 1)) % L`, which
is the form used here over ℕ. -/
def neighbors (L : ℕ) (σ : Spins) (i j : ℕ) : ℤ :=
  σ ((i + 1) % L) j + σ ((i + (L - 1)) % L) j +
    σ i ((j + 1) % L) + σ i ((j + (L - 1)) % L)

/-- `delta_E = 2 * spin * neighbors` from `IsingModel._energy_change`
(ising.py); the coupling J = 1 is hard-coded in the source. -/
def energy_change (L : ℕ) (σ : Spins) (i j : ℕ) : ℤ :=
  2 * σ i j * neighbors L σ i j

/-- `self.spins[i, j] *= -1` (ising.py): negate one spin, keep all others. -/
def flipAt (σ : Spins) (a b : ℕ) : Spins :=
  fun i j => if i = a ∧ j = b then -σ i j else σ i j

/-- One iteration's random draws in `metropolis_step` (ising.py): the site
row `i = np.random.randint(0, L)`, the site column `j`, and the uniform
variate `u = np.random.rand()`.  The variate is bundled with every attempt
even though the source only draws it when `delta_E > 0` (Python's `or`
short-circuits); when `delta_E ≤ 0` its value cannot influence the
outcome. -/
structure Draw where
  i : ℕ
  j : ℕ
  u : ℝ

section
open Classical

/-- The body of the `metropolis_step` loop (ising.py): flip the chosen spin
iff `delta_E <= 0 or np.random.rand() < np.exp(-delta_E / self.T)`. -/
noncomputable def attempt (L : ℕ) (T : ℚ) (σ : Spins) (d : Draw) : Spins :=
  if energy_change L σ d.i d.j ≤ 0 ∨
      d.u < Real.exp (-((energy_change L σ d.i d.j : ℝ)) / (T : ℝ)) then
    flipAt σ d.i d.j
  else σ

end

/-- `IsingModel.metropolis_step` (ising.py): `for _ in range(self.L * self.L)`
perform one single-spin-flip attempt.  The t-th iteration of the sweep that
starts at stream position `k` uses the draw `rng (k + t)`. -/
noncomputable def metropolis_step (L : ℕ) (T : ℚ) (rng : ℕ → Draw) (k : ℕ)
    (σ : Spins) : Spins :=
  (List.range (L * L)).foldl (fun s t => attempt L T s (rng (k + t))) σ

/-- `n` consecutive calls of `metropolis_step` starting at stream position
`k`; each sweep consumes `L * L` draws. -/
noncomputable def sweeps (L : ℕ) (T : ℚ) (rng : ℕ → Draw) :
    ℕ → ℕ → Spins → Spins
  | 0, _, σ => σ
  | n + 1, k, σ => sweeps L T rng n (k + L * L) (metropolis_step L T rng k σ)

/-- `total_energy` (observables.py): for every cell look only right and down,
`E -= spins[i, j] * (right + down)`.  The running float total is an integer
throughout, so it is modelled in ℤ. -/
def total_energy (L : ℕ) (σ : Spins) : ℤ :=
  -∑ p ∈ Finset.range L ×ˢ Finset.range L,
      σ p.1 p.2 * (σ p.1 ((p.2 + 1) % L) + σ ((p.1 + 1) % L) p.2)

/-- `magnetization` (observables.py): `model.spins.sum()`. -/
def magnetization (L : ℕ) (σ : Spins) : ℤ :=
  ∑ p ∈ Finset.range L ×ˢ Finset.range L, σ p.1 p.2

/-- The five sampling accumulators of `simulate` (run_simulation.py):
`E_acc, E2_acc, M_acc, M2_acc, M4_acc`.  Their values are sums of integer
observables, so the float accumulation of the source is exact here. -/
structure Accs where
  E : ℤ
  E2 : ℤ
  M : ℤ
  M2 : ℤ
  M4 : ℤ
  deriving DecidableEq

/-- The sampling loop of `simulate` (run_simulation.py): `n` times repeat
"one sweep, then add E, E·E, |m|, m·m, m**4 of the snapshot into the
accumulators". -/
noncomputable def sampleLoop (L : ℕ) (T : ℚ) (rng : ℕ → Draw) :
    ℕ → ℕ → Spins → Accs → Accs
  | 0, _, _, acc => acc
  | n + 1, k, σ, acc =>
    sampleLoop L T rng n (k + L * L) (metropolis_step L T rng k σ)
      ⟨acc.E + total_energy L (metropolis_step L T rng k σ),
       acc.E2 + total_energy L (metropolis_step L T rng k σ) *
         total_energy L (metropolis_step L T rng k σ),
       acc.M + |magnetization L (metropolis_step L T rng k σ)|,
       acc.M2 + magnetization L (metropolis_step L T rng k σ) *
         magnetization L (metropolis_step L T rng k σ),
       acc.M4 + magnetization L (metropolis_step L T rng k σ) ^ 4⟩

/-- Guarded division: a numpy float64 division by zero yields a non-finite
result (inf or nan, with a runtime warning) rather than raising, and the
non-finite results are modelled as `none`. -/
def ndiv (x y : ℚ) : Option ℚ := if y = 0 then none else some (x / y)

/-- The derived quantities of one (L, T) configuration, in the order they
are appended by `simulate` (run_simulation.py): `C`, `M_acc/(n_samp*L*L)`,
`U`. -/
structure ConfigResult where
  heat_capacity : Option ℚ
  magnetization : Option ℚ
  binder : Option ℚ
  deriving DecidableEq

/-- The observable-derivation block of `simulate` (run_simulation.py), with
`E_mean`, `E2_mean`, `M2_mean`, `M4_mean` inlined.  The divisions by
`n_samp` are plain field divisions because the caller (`runConfig`)
establishes `n_samp ≠ 0`; the source raises `ZeroDivisionError` otherwise.
The remaining denominators (`T**2 * L * L`, `n_samp * L * L`,
`3 * M2_mean**2`) are numpy float64 divisions, modelled by `ndiv`. -/
def derive (L : ℕ) (T : ℚ) (n_samp : ℕ) (a : Accs) : ConfigResult :=
  { heat_capacity :=
      ndiv ((a.E2 : ℚ) / (n_samp : ℚ) - ((a.E : ℚ) / (n_samp : ℚ)) ^ 2)
        (T ^ 2 * (L : ℚ) * (L : ℚ))
    magnetization := ndiv (a.M : ℚ) ((n_samp : ℚ) * (L : ℚ) * (L : ℚ))
    binder :=
      (ndiv ((a.M4 : ℚ) / (n_samp : ℚ))
          (3 * ((a.M2 : ℚ) / (n_samp : ℚ)) ^ 2)).map fun x => 1 - x }

/-- One (L, T) configuration of `simulate` (run_simulation.py): build the
lattice, equilibrate with `n_eq` sweeps, sample with `n_samp` sweeps, then
derive the observables. -/
noncomputable def runConfigCore (L : ℕ) (T : ℚ) (n_eq n_samp : ℕ)
    (rb : ℕ → ℕ → Bool) (rng : ℕ → Draw) : ConfigResult :=
  derive L T n_samp
    (sampleLoop L T rng n_samp (n_eq * (L * L)) (sweeps L T rng n_eq 0 (init rb))
      ⟨0, 0, 0, 0, 0⟩)

/-- The lattice snapshot observed at sampling iteration `t` of one (L, T)
configuration: `n_eq` equilibration sweeps from stream position 0, then
`t + 1` further sweeps. -/
noncomputable def straj (L : ℕ) (T : ℚ) (rng : ℕ → Draw) (rb : ℕ → ℕ → Bool)
    (n_eq t : ℕ) : Spins :=
  sweeps L T rng (t + 1) (n_eq * (L * L)) (sweeps L T rng n_eq 0 (init rb))

/-- The one exception the driver can raise: with `n_samp = 0` the source's
`E_mean = E_acc / n_samp` divides the plain Python float `0.0` (the
accumulator was never touched) by the integer zero. -/
inductive PyError where
  | zeroDivision
  deriving DecidableEq

/-- One (L, T) configuration including the `n_samp = 0` failure mode. -/
noncomputable def runConfig (L : ℕ) (T : ℚ) (n_eq n_samp : ℕ)
    (rb : ℕ → ℕ → Bool) (rng : ℕ → Draw) : Except PyError ConfigResult :=
  if n_samp = 0 then Except.error PyError.zeroDivision
  else Except.ok (runConfigCore L T n_eq n_samp rb rng)

/-- The per-size entry of the `results` dict built by `simulate`
(run_simulation.py): exactly the three arrays `heat_capacity`,
`magnetization`, `binder`, each indexed by the temperature sequence. -/
structure LResult where
  heat_capacity : List (Option ℚ)
  magnetization : List (Option ℚ)
  binder : List (Option ℚ)
  deriving DecidableEq

/-- A Python `for`-loop appending `f x` for each element of a list, with an
uncaught exception aborting the whole loop. -/
def mapExcept {α β : Type} (f : α → Except PyError β) :
    List α → Except PyError (List β)
  | [] => Except.ok []
  | x :: l =>
    match f x with
    | Except.error e => Except.error e
    | Except.ok y =>
      match mapExcept f l with
      | Except.error e => Except.error e
      | Except.ok ys => Except.ok (y :: ys)

/-- `simulate` (run_simulation.py): iterate over the lattice sizes and the
temperature grid, run one configuration per (L, T), and collect the
per-size lists `heat_caps`, `mags`, `binders` into the result table keyed
by L.  The module-level numpy generator is modelled by explicit streams:
`rb li ti` and `rng li ti` are the draws consumed by the configuration at
size index `li` and temperature index `ti`. -/
noncomputable def simulate (Ls : List ℕ) (temps : List ℚ) (n_eq n_samp : ℕ)
    (rb : ℕ → ℕ → ℕ → ℕ → Bool) (rng : ℕ → ℕ → ℕ → Draw) :
    Except PyError (List (ℕ × LResult)) :=
  mapExcept (fun li =>
    match mapExcept (fun ti =>
        runConfig li.2 ti.2 n_eq n_samp (rb li.1 ti.1) (rng li.1 ti.1))
        temps.enum with
    | Except.error e => Except.error e
    | Except.ok rs =>
      Except.ok (li.2,
        ⟨rs.map ConfigResult.heat_capacity, rs.map ConfigResult.magnetization,
         rs.map ConfigResult.binder⟩))
    Ls.enum

/-- Lattice in which every spin is +1 (the all-up configuration of the
end-to-end scenario). -/
def allUp : Spins := fun _ _ => 1

/-- Lattice that is +1 at the origin and −1 elsewhere. -/
def oneUp : Spins := fun i j => if i = 0 ∧ j = 0 then 1 else -1

/-- Initialiser stream making every spin +1. -/
def rbTrue : ℕ → ℕ → Bool := fun _ _ => true

/-- Initialiser stream making every spin −1. -/
def rbFalse : ℕ → ℕ → Bool := fun _ _ => false

/-- Per-configuration initialiser-stream family, all spins +1. -/
def rb4True : ℕ → ℕ → ℕ → ℕ → Bool := fun _ _ _ _ => true

/-- Per-configuration initialiser-stream family, all spins −1. -/
def rb4False : ℕ → ℕ → ℕ → ℕ → Bool := fun _ _ _ _ => false

/-- A fixed sweep draw: site (0, 0), uniform variate 1. -/
noncomputable def drawOne : Draw := ⟨0, 0, 1⟩

/-- A constant sweep-draw stream. -/
noncomputable def rngOne : ℕ → Draw := fun _ => drawOne

/-- A constant per-configuration sweep-draw family. -/
noncomputable def rng3One : ℕ → ℕ → ℕ → Draw := fun _ _ _ => drawOne

/- ------------------------------------------------------------------ -/
/- Helper lemmas. -/

theorem mod_succ_ne {L x : ℕ} (hL : 2 ≤ L) (hx : x < L) : (x + 1) % L ≠ x := by
  rcases Nat.lt_or_ge (x + 1) L with h | h
  · rw [Nat.mod_eq_of_lt h]; omega
  · have hx1 : x + 1 = L := by omega
    rw [hx1, Nat.mod_self]; omega

theorem mod_pred_succ {L x : ℕ} (hL : 1 ≤ L) (hx : x < L) :
    ((x + (L - 1)) % L + 1) % L = x := by
  rw [Nat.mod_add_mod]
  have h1 : x + (L - 1) + 1 = x + L := by omega
  rw [h1, Nat.add_mod_right, Nat.mod_eq_of_lt hx]

theorem mod_pred_ne {L x : ℕ} (hL : 2 ≤ L) (hx : x < L) :
    (x + (L - 1)) % L ≠ x := by
  intro h
  have h2 := mod_pred_succ (L := L) (x := x) (by omega) hx
  rw [h] at h2
  exact mod_succ_ne hL hx h2

theorem eq_pred_of_mod_succ {L x y : ℕ} (hx : x < L) (h : (x + 1) % L = y) :
    x = (y + (L - 1)) % L := by
  subst h
  rw [Nat.mod_add_mod]
  have h1 : x + 1 + (L - 1) = x + L := by omega
  rw [h1, Nat.add_mod_right, Nat.mod_eq_of_lt hx]

theorem pm_init (rb : ℕ → ℕ → Bool) : pm (init rb) := by
  intro i j
  by_cases h : rb i j <;> simp [init, h]

theorem pm_flipAt {σ : Spins} (h : pm σ) (a b : ℕ) : pm (flipAt σ a b) := by
  intro i j
  by_cases h2 : i = a ∧ j = b
  · obtain ⟨rfl, rfl⟩ := h2
    rcases h i j with h1 | h1 <;> simp [flipAt, h1]
  · rcases h i j with h1 | h1 <;> simp [flipAt, h2, h1]

theorem pm_attempt (L : ℕ) (T : ℚ) {σ : Spins} (h : pm σ) (d : Draw) :
    pm (attempt L T σ d) := by
  unfold attempt
  split
  · exact pm_flipAt h d.i d.j
  · exact h

theorem pm_step (L : ℕ) (T : ℚ) (rng : ℕ → Draw) (k : ℕ) {σ : Spins}
    (h : pm σ) : pm (metropolis_step L T rng k σ) := by
  unfold metropolis_step
  suffices hs : ∀ (l : List ℕ) (τ : Spins), pm τ →
      pm (l.foldl (fun s t => attempt L T s (rng (k + t))) τ) from
    hs _ _ h
  intro l
  induction l with
  | nil => intro τ hτ; exact hτ
  | cons x l ih => intro τ hτ; exact ih _ (pm_attempt L T hτ (rng (k + x)))

theorem pm_sweeps (L : ℕ) (T : ℚ) (rng : ℕ → Draw) :
    ∀ (n k : ℕ) (σ : Spins), pm σ → pm (sweeps L T rng n k σ) := by
  intro n
  induction n with
  | zero => intro k σ h; exact h
  | succ n ih => intro k σ h; exact ih _ _ (pm_step L T rng k h)

theorem range_one_product :
    Finset.range 1 ×ˢ Finset.range 1 = {((0 : ℕ), (0 : ℕ))} := by decide

theorem total_energy_L1 {σ : Spins} (h : σ 0 0 = 1 ∨ σ 0 0 = -1) :
    total_energy 1 σ = -2 := by
  simp only [total_energy, range_one_product, Finset.sum_singleton]
  norm_num
  rcases h with h | h <;> rw [h] <;> norm_num

theorem magnetization_L1 (σ : Spins) : magnetization 1 σ = σ 0 0 := by
  simp only [magnetization, range_one_product, Finset.sum_singleton]

theorem magnetization_L0 (σ : Spins) : magnetization 0 σ = 0 := by
  simp [magnetization]

theorem sweeps_one (L : ℕ) (T : ℚ) (rng : ℕ → Draw) (k : ℕ) (σ : Spins) :
    sweeps L T rng (0 + 1) k σ = metropolis_step L T rng k σ := rfl

theorem sweeps_shift (L : ℕ) (T : ℚ) (rng : ℕ → Draw) (t k : ℕ) (σ : Spins) :
    sweeps L T rng (t + 1 + 1) k σ =
      sweeps L T rng (t + 1) (k + L * L) (metropolis_step L T rng k σ) := rfl

theorem sampleLoop_spec (L : ℕ) (T : ℚ) (rng : ℕ → Draw) :
    ∀ (n k : ℕ) (σ : Spins) (acc : Accs),
      sampleLoop L T rng n k σ acc =
        ⟨acc.E + ∑ t ∈ Finset.range n, total_energy L (sweeps L T rng (t + 1) k σ),
         acc.E2 + ∑ t ∈ Finset.range n,
           total_energy L (sweeps L T rng (t + 1) k σ) *
             total_energy L (sweeps L T rng (t + 1) k σ),
         acc.M + ∑ t ∈ Finset.range n, |magnetization L (sweeps L T rng (t + 1) k σ)|,
         acc.M2 + ∑ t ∈ Finset.range n,
           magnetization L (sweeps L T rng (t + 1) k σ) *
             magnetization L (sweeps L T rng (t + 1) k σ),
         acc.M4 + ∑ t ∈ Finset.range n,
           magnetization L (sweeps L T rng (t + 1) k σ) ^ 4⟩ := by
  intro n
  induction n with
  | zero => intro k σ acc; simp [sampleLoop]
  | succ n ih =>
    intro k σ acc
    rw [sampleLoop, ih]
    simp only [Accs.mk.injEq]
    refine ⟨?_, ?_, ?_, ?_, ?_⟩ <;>
      rw [Finset.sum_range_succ'] <;>
        simp only [sweeps_shift, sweeps_one] <;> ring

theorem mapExcept_ok {α β : Type} (f : α → Except PyError β) (g : α → β)
    (l : List α) (h : ∀ x ∈ l, f x = Except.ok (g x)) :
    mapExcept f l = Except.ok (l.map g) := by
  induction l with
  | nil => rfl
  | cons a l ih =>
    rw [List.map_cons]
    simp only [mapExcept]
    rw [h a (List.mem_cons_self a l),
      ih (fun x hx => h x (List.mem_cons_of_mem a hx))]

theorem mapExcept_error_head {α β : Type} (f : α → Except PyError β)
    (a : α) (l : List α) (e : PyError) (h : f a = Except.error e) :
    mapExcept f (a :: l) = Except.error e := by
  simp only [mapExcept]
  rw [h]

theorem runConfig_ok (L : ℕ) (T : ℚ) (n_eq n_samp : ℕ) (rb : ℕ → ℕ → Bool)
    (rng : ℕ → Draw) (hn : n_samp ≠ 0) :
    runConfig L T n_eq n_samp rb rng =
      Except.ok (runConfigCore L T n_eq n_samp rb rng) := by
  simp [runConfig, hn]

theorem simulate_ok (Ls : List ℕ) (temps : List ℚ) (n_eq n_samp : ℕ)
    (rb : ℕ → ℕ → ℕ → ℕ → Bool) (rng : ℕ → ℕ → ℕ → Draw) (hn : n_samp ≠ 0) :
    simulate Ls temps n_eq n_samp rb rng =
      Except.ok (Ls.enum.map fun li =>
        (li.2, LResult.mk
          (temps.enum.map fun ti =>
            (runConfigCore li.2 ti.2 n_eq n_samp (rb li.1 ti.1) (rng li.1 ti.1)).heat_capacity)
          (temps.enum.map fun ti =>
            (runConfigCore li.2 ti.2 n_eq n_samp (rb li.1 ti.1) (rng li.1 ti.1)).magnetization)
          (temps.enum.map fun ti =>
            (runConfigCore li.2 ti.2 n_eq n_samp (rb li.1 ti.1) (rng li.1 ti.1)).binder))) := by
  unfold simulate
  apply mapExcept_ok
  intro li _
  rw [mapExcept_ok
    (fun ti => runConfig li.2 ti.2 n_eq n_samp (rb li.1 ti.1) (rng li.1 ti.1))
    (fun ti => runConfigCore li.2 ti.2 n_eq n_samp (rb li.1 ti.1) (rng li.1 ti.1))
    temps.enum
    (fun ti _ => runConfig_ok li.2 ti.2 n_eq n_samp (rb li.1 ti.1) (rng li.1 ti.1) hn)]
  simp [List.map_map, Function.comp]

theorem sampleLoop_L1 (T : ℚ) (rng : ℕ → Draw) (σ : Spins) (hσ : pm σ)
    (k : ℕ) : sampleLoop 1 T rng 1 k σ ⟨0, 0, 0, 0, 0⟩ = ⟨-2, 4, 1, 1, 1⟩ := by
  have hs : pm (metropolis_step 1 T rng k σ) := pm_step 1 T rng k hσ
  have hE : total_energy 1 (metropolis_step 1 T rng k σ) = -2 :=
    total_energy_L1 (hs 0 0)
  have hm := magnetization_L1 (metropolis_step 1 T rng k σ)
  simp only [sampleLoop]
  rcases hs 0 0 with h | h <;> simp [hE, hm, h, Accs.mk.injEq]

theorem runConfigCore_L1 (T : ℚ) (n_eq : ℕ) (rb : ℕ → ℕ → Bool)
    (rng : ℕ → Draw) :
    runConfigCore 1 T n_eq 1 rb rng = derive 1 T 1 ⟨-2, 4, 1, 1, 1⟩ := by
  unfold runConfigCore
  rw [sampleLoop_L1 T rng _ (pm_sweeps 1 T rng n_eq 0 _ (pm_init rb))]

/- ------------------------------------------------------------------ -/
/- Claim theorems. -/

/-- C1: for every lattice whose cells are all in {+1, −1} (side length at
least 2, as required of lattices by the data model) and every in-bounds cell
(a, b), flipping the single spin at (a, b) while holding all other spins
fixed changes `total_energy` by exactly the `delta_E` the sweep engine
computes for that site, namely 2·J·s·nb with J = 1. -/
theorem flip_changes_total_energy (L : ℕ) (σ : Spins) (a b : ℕ)
    (_hpm : ∀ i j : ℕ, i < L → j < L → σ i j = 1 ∨ σ i j = -1)
    (hL : 2 ≤ L) (ha : a < L) (hb : b < L) :
    total_energy L (flipAt σ a b) - total_energy L σ = energy_change L σ a b := by
  have hL0 : 0 < L := by omega
  set τ := flipAt σ a b with hτ
  have hq : τ a b = -σ a b := by simp [hτ, flipAt]
  have hn : ∀ x y : ℕ, ¬(x = a ∧ y = b) → τ x y = σ x y := by
    intro x y h
    simp [hτ, flipAt, h]
  have hlb_lt : (b + (L - 1)) % L < L := Nat.mod_lt _ hL0
  have hua_lt : (a + (L - 1)) % L < L := Nat.mod_lt _ hL0
  have hlb_ne : (b + (L - 1)) % L ≠ b := mod_pred_ne hL hb
  have hua_ne : (a + (L - 1)) % L ≠ a := mod_pred_ne hL ha
  have hlb1 : ((b + (L - 1)) % L + 1) % L = b := mod_pred_succ (by omega) hb
  have hua1 : ((a + (L - 1)) % L + 1) % L = a := mod_pred_succ (by omega) ha
  have hrb_ne : (b + 1) % L ≠ b := mod_succ_ne hL hb
  have hra_ne : (a + 1) % L ≠ a := mod_succ_ne hL ha
  have hsplit : total_energy L τ - total_energy L σ =
      ∑ p ∈ Finset.range L ×ˢ Finset.range L,
        (σ p.1 p.2 * (σ p.1 ((p.2 + 1) % L) + σ ((p.1 + 1) % L) p.2)
          - τ p.1 p.2 * (τ p.1 ((p.2 + 1) % L) + τ ((p.1 + 1) % L) p.2)) := by
    simp only [total_energy, Finset.sum_sub_distrib]
    ring
  have hzero : ∀ p ∈ Finset.range L ×ˢ Finset.range L,
      p ∉ (insert ((a : ℕ), (b : ℕ))
            (insert (a, (b + (L - 1)) % L) {((a + (L - 1)) % L, b)}) : Finset (ℕ × ℕ)) →
      (σ p.1 p.2 * (σ p.1 ((p.2 + 1) % L) + σ ((p.1 + 1) % L) p.2)
        - τ p.1 p.2 * (τ p.1 ((p.2 + 1) % L) + τ ((p.1 + 1) % L) p.2)) = 0 := by
    intro p hp hpS
    obtain ⟨hp1, hp2⟩ := Finset.mem_product.mp hp
    rw [Finset.mem_range] at hp1 hp2
    simp only [Finset.mem_insert, Finset.mem_singleton] at hpS
    push_neg at hpS
    obtain ⟨h1, h2, h3⟩ := hpS
    have e1 : τ p.1 p.2 = σ p.1 p.2 := by
      apply hn
      rintro ⟨hx, hy⟩
      exact h1 (Prod.ext hx hy)
    have e2 : τ p.1 ((p.2 + 1) % L) = σ p.1 ((p.2 + 1) % L) := by
      apply hn
      rintro ⟨hx, hy⟩
      exact h2 (Prod.ext hx (eq_pred_of_mod_succ hp2 hy))
    have e3 : τ ((p.1 + 1) % L) p.2 = σ ((p.1 + 1) % L) p.2 := by
      apply hn
      rintro ⟨hx, hy⟩
      exact h3 (Prod.ext (eq_pred_of_mod_succ hp1 hx) hy)
    rw [e1, e2, e3]
    ring
  have hsubS : (insert ((a : ℕ), (b : ℕ))
      (insert (a, (b + (L - 1)) % L) {((a + (L - 1)) % L, b)}) : Finset (ℕ × ℕ)) ⊆
      Finset.range L ×ˢ Finset.range L := by
    intro p hp
    simp only [Finset.mem_insert, Finset.mem_singleton] at hp
    rcases hp with rfl | rfl | rfl <;>
      simp [Finset.mem_product, Finset.mem_range, ha, hb, hlb_lt, hua_lt]
  have hq_notin : ((a : ℕ), (b : ℕ)) ∉
      (insert (a, (b + (L - 1)) % L) {((a + (L - 1)) % L, b)} : Finset (ℕ × ℕ)) := by
    simp only [Finset.mem_insert, Finset.mem_singleton]
    push_neg
    refine ⟨fun h => ?_, fun h => ?_⟩
    · exact hlb_ne (congrArg Prod.snd h).symm
    · exact hua_ne (congrArg Prod.fst h).symm
  have hlb_notin : ((a : ℕ), (b + (L - 1)) % L) ∉
      ({((a + (L - 1)) % L, b)} : Finset (ℕ × ℕ)) := by
    simp only [Finset.mem_singleton]
    intro h
    exact hua_ne (congrArg Prod.fst h).symm
  rw [hsplit, ← Finset.sum_subset hsubS hzero,
    Finset.sum_insert hq_notin, Finset.sum_insert hlb_notin,
    Finset.sum_singleton]
  have t2 : τ a ((b + 1) % L) = σ a ((b + 1) % L) := by
    apply hn
    rintro ⟨-, h⟩
    exact hrb_ne h
  have t3 : τ ((a + 1) % L) b = σ ((a + 1) % L) b := by
    apply hn
    rintro ⟨h, -⟩
    exact hra_ne h
  have t4 : τ a ((b + (L - 1)) % L) = σ a ((b + (L - 1)) % L) := by
    apply hn
    rintro ⟨-, h⟩
    exact hlb_ne h
  have t5 : τ ((a + (L - 1)) % L) b = σ ((a + (L - 1)) % L) b := by
    apply hn
    rintro ⟨h, -⟩
    exact hua_ne h
  have t7 : τ ((a + 1) % L) ((b + (L - 1)) % L) =
      σ ((a + 1) % L) ((b + (L - 1)) % L) := by
    apply hn
    rintro ⟨h, -⟩
    exact hra_ne h
  have t8 : τ ((a + (L - 1)) % L) ((b + 1) % L) =
      σ ((a + (L - 1)) % L) ((b + 1) % L) := by
    apply hn
    rintro ⟨h, -⟩
    exact hua_ne h
  simp only [hlb1, hua1]
  rw [hq, t2, t3, t4, t5, t7, t8]
  simp only [energy_change, neighbors]
  ring

/-- C1 witness: the general theorem instantiated on the all-up 2×2 lattice
at cell (0, 0). -/
theorem flip_changes_total_energy_witness :
    (∀ i j : ℕ, i < 2 → j < 2 → allUp i j = 1 ∨ allUp i j = -1) ∧
    2 ≤ 2 ∧ (0 : ℕ) < 2 ∧
    total_energy 2 (flipAt allUp 0 0) - total_energy 2 allUp =
      energy_change 2 allUp 0 0 :=
  ⟨fun i j _ _ => Or.inl rfl, by decide, by decide,
    flip_changes_total_energy 2 allUp 0 0 (fun i j _ _ => Or.inl rfl)
      (by decide) (by decide) (by decide)⟩

/-- C2: one `metropolis_step` call folds exactly L·L single-spin-flip
attempts over the draws at stream positions k, …, k + L·L − 1 (and depends
on no other draws); each attempt flips the chosen spin iff ΔE ≤ 0 or the
uniform variate is below exp(−ΔE/T), a rejected attempt leaves the lattice
unchanged, and an accepted flip negates the spin at the chosen site while
keeping every other cell.  (That the drawn sites and variates are uniformly
distributed is a property of numpy's generator, abstracted here as the
stream `rng`.) -/
theorem metropolis_step_semantics (L : ℕ) (T : ℚ) :
    (∀ (rng : ℕ → Draw) (k : ℕ) (σ : Spins),
      metropolis_step L T rng k σ =
        (List.range (L * L)).foldl (fun s t => attempt L T s (rng (k + t))) σ)
  ∧ (∀ (rng rng' : ℕ → Draw) (k : ℕ) (σ : Spins),
      (∀ t, t < L * L → rng (k + t) = rng' (k + t)) →
        metropolis_step L T rng k σ = metropolis_step L T rng' k σ)
  ∧ (∀ (σ : Spins) (d : Draw),
      energy_change L σ d.i d.j ≤ 0 ∨
          d.u < Real.exp (-((energy_change L σ d.i d.j : ℝ)) / (T : ℝ)) →
        attempt L T σ d = flipAt σ d.i d.j)
  ∧ (∀ (σ : Spins) (d : Draw),
      ¬(energy_change L σ d.i d.j ≤ 0 ∨
          d.u < Real.exp (-((energy_change L σ d.i d.j : ℝ)) / (T : ℝ))) →
        attempt L T σ d = σ)
  ∧ (∀ (σ : Spins) (a b : ℕ),
      flipAt σ a b a b = -σ a b ∧
        ∀ x y : ℕ, ¬(x = a ∧ y = b) → flipAt σ a b x y = σ x y) := by
  refine ⟨fun rng k σ => rfl, ?_, ?_, ?_, ?_⟩
  · intro rng rng' k σ h
    unfold metropolis_step
    have key : ∀ (l : List ℕ) (τ : Spins), (∀ t ∈ l, rng (k + t) = rng' (k + t)) →
        l.foldl (fun s t => attempt L T s (rng (k + t))) τ =
          l.foldl (fun s t => attempt L T s (rng' (k + t))) τ := by
      intro l
      induction l with
      | nil => intro τ _; rfl
      | cons x l ih =>
        intro τ hl
        have hx := hl x (List.mem_cons_self x l)
        show l.foldl (fun s t => attempt L T s (rng (k + t))) (attempt L T τ (rng (k + x))) = _
        rw [hx, ih _ (fun t ht => hl t (List.mem_cons_of_mem x ht))]
        rfl
    exact key _ σ (fun t ht => h t (List.mem_range.mp ht))
  · intro σ d h
    unfold attempt
    rw [if_pos h]
  · intro σ d h
    unfold attempt
    rw [if_neg h]
  · intro σ a b
    refine ⟨by simp [flipAt], ?_⟩
    intro x y h
    simp [flipAt, h]

/-- C2 witness: on the 2×2 lattice that is +1 only at the origin the flip at
(0, 0) has ΔE = −8 ≤ 0 and is accepted; on the all-up 2×2 lattice it has
ΔE = 8 and the variate u = 1 rejects it (since exp(−8/2) ≤ 1), leaving the
lattice unchanged. -/
theorem metropolis_step_semantics_witness :
    energy_change 2 oneUp 0 0 ≤ 0 ∧
    attempt 2 2 oneUp drawOne = flipAt oneUp 0 0 ∧
    ¬(energy_change 2 allUp 0 0 ≤ 0 ∨
        drawOne.u < Real.exp (-((energy_change 2 allUp 0 0 : ℝ)) / ((2 : ℚ) : ℝ))) ∧
    attempt 2 2 allUp drawOne = allUp := by
  have h1 : energy_change 2 oneUp 0 0 ≤ 0 := by decide
  have he : energy_change 2 allUp 0 0 = 8 := by decide
  have h2 : ¬(energy_change 2 allUp 0 0 ≤ 0 ∨
      drawOne.u < Real.exp (-((energy_change 2 allUp 0 0 : ℝ)) / ((2 : ℚ) : ℝ))) := by
    rw [he]
    rintro (h | h)
    · norm_num at h
    · have hle : Real.exp (-((8 : ℤ) : ℝ) / ((2 : ℚ) : ℝ)) ≤ 1 := by
        rw [Real.exp_le_one_iff]
        norm_num
      have hu : drawOne.u = 1 := rfl
      rw [hu] at h
      exact absurd h (not_lt.mpr hle)
  exact ⟨h1,
    (metropolis_step_semantics 2 2).2.2.1 oneUp drawOne (Or.inl h1),
    h2,
    (metropolis_step_semantics 2 2).2.2.2.1 allUp drawOne h2⟩

/-- C7: every cell of a freshly constructed lattice is +1 or −1, and the
property is preserved by any number of sweep calls. -/
theorem spins_pm_invariant (L : ℕ) (T : ℚ) (rng : ℕ → Draw) :
    (∀ (rb : ℕ → ℕ → Bool) (i j : ℕ), init rb i j = 1 ∨ init rb i j = -1)
  ∧ (∀ σ : Spins, (∀ i j : ℕ, σ i j = 1 ∨ σ i j = -1) →
      ∀ (n k i j : ℕ),
        sweeps L T rng n k σ i j = 1 ∨ sweeps L T rng n k σ i j = -1) :=
  ⟨fun rb => pm_init rb, fun σ h n k => pm_sweeps L T rng n k σ h⟩

/-- C7 witness: the invariant instantiated on a freshly constructed 2×2
lattice after one sweep. -/
theorem spins_pm_invariant_witness :
    (∀ i j : ℕ, init rbTrue i j = 1 ∨ init rbTrue i j = -1) ∧
    (sweeps 2 2 rngOne 1 0 (init rbTrue) 0 0 = 1 ∨
      sweeps 2 2 rngOne 1 0 (init rbTrue) 0 0 = -1) :=
  ⟨(spins_pm_invariant 2 2 rngOne).1 rbTrue,
    (spins_pm_invariant 2 2 rngOne).2 (init rbTrue)
      ((spins_pm_invariant 2 2 rngOne).1 rbTrue) 1 0 0 0⟩

/-- C8: in the end-to-end scenario with L = 4 and every spin +1,
`magnetization` returns 16 and `total_energy` returns −32. -/
theorem scenario_L4_allup :
    magnetization 4 allUp = 16 ∧ total_energy 4 allUp = -32 := by
  constructor <;> decide

/-- C10: on a ±1 lattice the energy change of any in-bounds cell is one of
−8, −4, 0, 4, 8. -/
theorem energy_change_values (L : ℕ) (σ : Spins) (i j : ℕ)
    (hpm : ∀ x y : ℕ, x < L → y < L → σ x y = 1 ∨ σ x y = -1)
    (hi : i < L) (hj : j < L) :
    energy_change L σ i j = -8 ∨ energy_change L σ i j = -4 ∨
      energy_change L σ i j = 0 ∨ energy_change L σ i j = 4 ∨
      energy_change L σ i j = 8 := by
  have hL0 : 0 < L := Nat.lt_of_le_of_lt (Nat.zero_le i) hi
  have h1 := hpm ((i + 1) % L) j (Nat.mod_lt _ hL0) hj
  have h2 := hpm ((i + (L - 1)) % L) j (Nat.mod_lt _ hL0) hj
  have h3 := hpm i ((j + 1) % L) hi (Nat.mod_lt _ hL0)
  have h4 := hpm i ((j + (L - 1)) % L) hi (Nat.mod_lt _ hL0)
  have h5 := hpm i j hi hj
  simp only [energy_change, neighbors]
  rcases h5 with h5 | h5 <;> rcases h1 with h1 | h1 <;> rcases h2 with h2 | h2 <;>
    rcases h3 with h3 | h3 <;> rcases h4 with h4 | h4 <;>
      rw [h1, h2, h3, h4, h5] <;> norm_num

/-- C10 witness: on the all-up 2×2 lattice the energy change at (0, 0) is in
the admissible value set (it is 8). -/
theorem energy_change_values_witness :
    (∀ x y : ℕ, x < 2 → y < 2 → allUp x y = 1 ∨ allUp x y = -1) ∧
    (energy_change 2 allUp 0 0 = -8 ∨ energy_change 2 allUp 0 0 = -4 ∨
      energy_change 2 allUp 0 0 = 0 ∨ energy_change 2 allUp 0 0 = 4 ∨
      energy_change 2 allUp 0 0 = 8) :=
  ⟨fun x y _ _ => Or.inl rfl,
    energy_change_values 2 allUp 0 0 (fun x y _ _ => Or.inl rfl)
      (by decide) (by decide)⟩

/-- C3: after sampling, per-spin magnetization is (Σ|m|/n_samp)/L², heat
capacity is (⟨E²⟩ − ⟨E⟩²)/(T²·L²) and the Binder cumulant is
1 − ⟨M⁴⟩/(3⟨M²⟩²), the means being the accumulator sums divided by
n_samp; the sums range over the sampling-phase snapshots `straj`. -/
theorem derived_observables_formulas (L : ℕ) (T : ℚ) (n_eq n_samp : ℕ)
    (rb : ℕ → ℕ → Bool) (rng : ℕ → Draw)
    (hn : n_samp ≠ 0) (hL : L ≠ 0) (hT : T ≠ 0)
    (hM2 : (∑ t ∈ Finset.range n_samp,
        magnetization L (straj L T rng rb n_eq t) *
          magnetization L (straj L T rng rb n_eq t)) ≠ 0) :
    (runConfigCore L T n_eq n_samp rb rng).magnetization =
      some ((((∑ t ∈ Finset.range n_samp,
          |magnetization L (straj L T rng rb n_eq t)| : ℤ) : ℚ) / (n_samp : ℚ)) /
        (L : ℚ) ^ 2)
  ∧ (runConfigCore L T n_eq n_samp rb rng).heat_capacity =
      some ((((∑ t ∈ Finset.range n_samp,
            total_energy L (straj L T rng rb n_eq t) *
              total_energy L (straj L T rng rb n_eq t) : ℤ) : ℚ) / (n_samp : ℚ)
          - (((∑ t ∈ Finset.range n_samp,
              total_energy L (straj L T rng rb n_eq t) : ℤ) : ℚ) / (n_samp : ℚ)) ^ 2)
        / (T ^ 2 * (L : ℚ) ^ 2))
  ∧ (runConfigCore L T n_eq n_samp rb rng).binder =
      some (1 - (((∑ t ∈ Finset.range n_samp,
            magnetization L (straj L T rng rb n_eq t) ^ 4 : ℤ) : ℚ) / (n_samp : ℚ))
        / (3 * ((((∑ t ∈ Finset.range n_samp,
            magnetization L (straj L T rng rb n_eq t) *
              magnetization L (straj L T rng rb n_eq t) : ℤ) : ℚ) / (n_samp : ℚ)) ^ 2))) := by
  have hnQ : (n_samp : ℚ) ≠ 0 := Nat.cast_ne_zero.mpr hn
  have hLQ : (L : ℚ) ≠ 0 := Nat.cast_ne_zero.mpr hL
  have hM2Q : ((∑ t ∈ Finset.range n_samp,
      magnetization L (straj L T rng rb n_eq t) *
        magnetization L (straj L T rng rb n_eq t) : ℤ) : ℚ) ≠ 0 :=
    Int.cast_ne_zero.mpr hM2
  unfold runConfigCore
  rw [sampleLoop_spec]
  simp only [straj] at hM2Q ⊢
  refine ⟨?_, ?_, ?_⟩
  · simp only [derive, ndiv, zero_add]
    rw [if_neg (mul_ne_zero (mul_ne_zero hnQ hLQ) hLQ)]
    congr 1
    rw [div_div]
    congr 1
    ring
  · simp only [derive, ndiv, zero_add]
    rw [if_neg (mul_ne_zero (mul_ne_zero (pow_ne_zero 2 hT) hLQ) hLQ)]
    congr 1
    rw [show T ^ 2 * (L : ℚ) * (L : ℚ) = T ^ 2 * (L : ℚ) ^ 2 by ring]
  · simp only [derive, ndiv, zero_add]
    rw [if_neg (mul_ne_zero three_ne_zero
      (pow_ne_zero 2 (div_ne_zero hM2Q hnQ)))]
    simp

/-- C3 witness: the formulas instantiated on a 1×1 lattice at T = 2 with a
single sample (where all magnetization moments are 1). -/
theorem derived_observables_formulas_witness :
    (∑ t ∈ Finset.range 1,
        magnetization 1 (straj 1 2 rngOne rbTrue 0 t) *
          magnetization 1 (straj 1 2 rngOne rbTrue 0 t)) ≠ 0
  ∧ (runConfigCore 1 2 0 1 rbTrue rngOne).binder =
      some (1 - (((∑ t ∈ Finset.range 1,
            magnetization 1 (straj 1 2 rngOne rbTrue 0 t) ^ 4 : ℤ) : ℚ) / ((1 : ℕ) : ℚ))
        / (3 * ((((∑ t ∈ Finset.range 1,
            magnetization 1 (straj 1 2 rngOne rbTrue 0 t) *
              magnetization 1 (straj 1 2 rngOne rbTrue 0 t) : ℤ) : ℚ) / ((1 : ℕ) : ℚ)) ^ 2))) := by
  have hpm : pm (straj 1 2 rngOne rbTrue 0 0) := by
    unfold straj
    exact pm_sweeps _ _ _ _ _ _ (pm_sweeps _ _ _ _ _ _ (pm_init rbTrue))
  have hM2 : (∑ t ∈ Finset.range 1,
      magnetization 1 (straj 1 2 rngOne rbTrue 0 t) *
        magnetization 1 (straj 1 2 rngOne rbTrue 0 t)) ≠ 0 := by
    rw [Finset.sum_range_one, magnetization_L1]
    rcases hpm 0 0 with h | h <;> rw [h] <;> decide
  exact ⟨hM2, (derived_observables_formulas 1 2 0 1 rbTrue rngOne
    (by decide) (by decide) (by decide) hM2).2.2⟩

/-- C9: the whole pipeline is a deterministic function of the random streams
and the parameters: two runs with identical seeds (hence identical streams)
and identical parameters produce identical derived results. -/
theorem simulate_deterministic (Ls Ls' : List ℕ) (temps temps' : List ℚ)
    (n_eq n_eq' n_samp n_samp' : ℕ)
    (rb rb' : ℕ → ℕ → ℕ → ℕ → Bool) (rng rng' : ℕ → ℕ → ℕ → Draw)
    (h1 : Ls = Ls') (h2 : temps = temps') (h3 : n_eq = n_eq')
    (h4 : n_samp = n_samp') (h5 : rb = rb') (h6 : rng = rng') :
    simulate Ls temps n_eq n_samp rb rng =
      simulate Ls' temps' n_eq' n_samp' rb' rng' := by
  subst h1 h2 h3 h4 h5 h6
  rfl

/-- C9 witness: determinism instantiated on a concrete configuration. -/
theorem simulate_deterministic_witness :
    simulate [1] [2] 0 1 rb4True rng3One = simulate [1] [2] 0 1 rb4True rng3One :=
  simulate_deterministic [1] [1] [2] [2] 0 0 1 1 rb4True rb4True rng3One rng3One
    rfl rfl rfl rfl rfl rfl

/-- C4 counterexample: the invalid configuration L = 1 (≤ 1) is not rejected
and is not fatal: the run completes through lattice construction,
equilibration, sampling and derivation and emits a full result. -/
theorem invalid_config_completes :
    (1 : ℕ) ≤ 1 ∧
    simulate [1] [(1 : ℚ)] 0 1 rb4False rng3One =
      Except.ok [(1, LResult.mk [some 0] [some 1] [some (2 / 3)])] := by
  refine ⟨by decide, ?_⟩
  rw [simulate_ok [1] [1] 0 1 rb4False rng3One (by decide)]
  simp only [List.enum, List.enumFrom, List.map]
  rw [runConfigCore_L1]
  norm_num [derive, ndiv]

/-- C4 amended: the driver performs no configuration validation.  Whenever
n_samp ≠ 0 a run completes and emits results regardless of L and T (L ≤ 1
and T ≤ 0 included, producing degenerate or non-finite values); only
n_samp = 0 with non-empty size and temperature lists fails, via the
division by zero in `E_mean = E_acc / n_samp`, which is raised inside the
per-configuration loop rather than by an upfront check. -/
theorem no_upfront_validation (Ls : List ℕ) (temps : List ℚ) (n_eq n_samp : ℕ)
    (rb : ℕ → ℕ → ℕ → ℕ → Bool) (rng : ℕ → ℕ → ℕ → Draw) :
    (n_samp ≠ 0 → ∃ res, simulate Ls temps n_eq n_samp rb rng = Except.ok res)
  ∧ (n_samp = 0 → Ls ≠ [] → temps ≠ [] →
      simulate Ls temps n_eq n_samp rb rng = Except.error PyError.zeroDivision) := by
  constructor
  · intro hn
    exact ⟨_, simulate_ok Ls temps n_eq n_samp rb rng hn⟩
  · intro hn hLs htemps
    subst hn
    obtain ⟨L0, Ls, rfl⟩ := List.exists_cons_of_ne_nil hLs
    obtain ⟨T0, temps, rfl⟩ := List.exists_cons_of_ne_nil htemps
    have hrc : runConfig L0 T0 n_eq 0 (rb 0 0) (rng 0 0) =
        Except.error PyError.zeroDivision := by
      simp [runConfig]
    simp [simulate, List.enum, List.enumFrom, mapExcept, hrc]

/-- C4 witness: the amended statement instantiated: a run with n_samp = 1
completes, and a run with n_samp = 0 on non-empty lists raises the division
error. -/
theorem no_upfront_validation_witness :
    (∃ res, simulate [2] [(2 : ℚ)] 0 1 rb4True rng3One = Except.ok res)
  ∧ simulate [2] [(2 : ℚ)] 0 0 rb4True rng3One =
      Except.error PyError.zeroDivision :=
  ⟨(no_upfront_validation [2] [2] 0 1 rb4True rng3One).1 (by decide),
    (no_upfront_validation [2] [2] 0 0 rb4True rng3One).2 rfl (by decide) (by decide)⟩

/-- C5 counterexample: in a completed concrete run the emitted record for
lattice size 1 holds exactly the three sequences heat capacity [some 0],
per-spin magnetization [some 1] and Binder cumulant [some 2/3], while the
run's per-spin energy value (energy sum / n_samp / L² = −2) appears in none
of them: the per-spin-energy family is not part of the output. -/
theorem per_spin_energy_not_emitted :
    simulate [1] [(2 : ℚ)] 0 1 rb4True rng3One =
      Except.ok [(1, LResult.mk [some 0] [some 1] [some (2 / 3)])]
  ∧ (((∑ t ∈ Finset.range 1,
        total_energy 1 (straj 1 2 (rng3One 0 0) (rb4True 0 0) 0 t) : ℤ) : ℚ)
      / ((1 : ℕ) : ℚ)) / ((1 : ℕ) : ℚ) ^ 2 = -2
  ∧ some (-2 : ℚ) ∉ [some (0 : ℚ)]
  ∧ some (-2 : ℚ) ∉ [some (1 : ℚ)]
  ∧ some (-2 : ℚ) ∉ [some (2 / 3 : ℚ)] := by
  refine ⟨?_, ?_, by norm_num, by norm_num, by norm_num⟩
  · rw [simulate_ok [1] [2] 0 1 rb4True rng3One (by decide)]
    simp only [List.enum, List.enumFrom, List.map]
    rw [runConfigCore_L1]
    norm_num [derive, ndiv]
  · have hpm : pm (straj 1 2 (rng3One 0 0) (rb4True 0 0) 0 0) := by
      unfold straj
      exact pm_sweeps _ _ _ _ _ _ (pm_sweeps _ _ _ _ _ _ (pm_init _))
    rw [Finset.sum_range_one, total_energy_L1 (hpm 0 0)]
    norm_num

/-- C5 amended: for every completed run the result emitted per lattice size
is an ordered triple of sequences aligned with the temperature sequence —
heat capacity, per-spin magnetization and Binder cumulant; per-spin energy
is computed internally but not part of the emitted output. -/
theorem simulate_output_three_families (Ls : List ℕ) (temps : List ℚ)
    (n_eq n_samp : ℕ) (rb : ℕ → ℕ → ℕ → ℕ → Bool) (rng : ℕ → ℕ → ℕ → Draw)
    (hn : n_samp ≠ 0) :
    ∃ res : List (ℕ × LResult),
      simulate Ls temps n_eq n_samp rb rng = Except.ok res ∧
      res = (Ls.enum.map fun li =>
        (li.2, LResult.mk
          (temps.enum.map fun ti =>
            (runConfigCore li.2 ti.2 n_eq n_samp (rb li.1 ti.1) (rng li.1 ti.1)).heat_capacity)
          (temps.enum.map fun ti =>
            (runConfigCore li.2 ti.2 n_eq n_samp (rb li.1 ti.1) (rng li.1 ti.1)).magnetization)
          (temps.enum.map fun ti =>
            (runConfigCore li.2 ti.2 n_eq n_samp (rb li.1 ti.1) (rng li.1 ti.1)).binder))) ∧
      res.length = Ls.length ∧
      ∀ r ∈ res, r.2.heat_capacity.length = temps.length ∧
        r.2.magnetization.length = temps.length ∧
        r.2.binder.length = temps.length := by
  refine ⟨_, simulate_ok Ls temps n_eq n_samp rb rng hn, rfl, ?_, ?_⟩
  · simp [List.enum_length]
  · intro r hr
    obtain ⟨li, _, rfl⟩ := List.mem_map.mp hr
    simp [List.enum_length]

/-- C5 amended witness: the three-family output shape instantiated on a
concrete run. -/
theorem simulate_output_three_families_witness :
    ∃ res : List (ℕ × LResult),
      simulate [1] [(2 : ℚ)] 0 1 rb4True rng3One = Except.ok res ∧
      res = ([(1 : ℕ)].enum.map fun li =>
        (li.2, LResult.mk
          ([(2 : ℚ)].enum.map fun ti =>
            (runConfigCore li.2 ti.2 0 1 (rb4True li.1 ti.1) (rng3One li.1 ti.1)).heat_capacity)
          ([(2 : ℚ)].enum.map fun ti =>
            (runConfigCore li.2 ti.2 0 1 (rb4True li.1 ti.1) (rng3One li.1 ti.1)).magnetization)
          ([(2 : ℚ)].enum.map fun ti =>
            (runConfigCore li.2 ti.2 0 1 (rb4True li.1 ti.1) (rng3One li.1 ti.1)).binder))) ∧
      res.length = [(1 : ℕ)].length ∧
      ∀ r ∈ res, r.2.heat_capacity.length = [(2 : ℚ)].length ∧
        r.2.magnetization.length = [(2 : ℚ)].length ∧
        r.2.binder.length = [(2 : ℚ)].length :=
  simulate_output_three_families [1] [2] 0 1 rb4True rng3One (by decide)

/-- C6: when every sampled magnetization is zero (so the sampled mean of M²
is zero), the Binder-cumulant computation produces the non-finite value
(modelled `none`) instead of raising — numpy float64 division by zero warns
and yields nan — and the orchestrator still emits a complete result table
with the degenerate value recorded as-is. -/
theorem binder_degenerate_nan :
    (∀ (L : ℕ) (T : ℚ) (n_eq n_samp : ℕ) (rb : ℕ → ℕ → Bool) (rng : ℕ → Draw),
        (∀ t, t < n_samp → magnetization L (straj L T rng rb n_eq t) = 0) →
        (runConfigCore L T n_eq n_samp rb rng).binder = none)
  ∧ (∀ (Ls : List ℕ) (temps : List ℚ) (n_eq n_samp : ℕ)
        (rb : ℕ → ℕ → ℕ → ℕ → Bool) (rng : ℕ → ℕ → ℕ → Draw), n_samp ≠ 0 →
        ∃ res, simulate Ls temps n_eq n_samp rb rng = Except.ok res ∧
          res.length = Ls.length ∧
          ∀ r ∈ res, r.2.binder.length = temps.length) := by
  constructor
  · intro L T n_eq n_samp rb rng h
    unfold runConfigCore
    rw [sampleLoop_spec]
    have hM2 : (∑ t ∈ Finset.range n_samp,
        magnetization L (sweeps L T rng (t + 1) (n_eq * (L * L))
            (sweeps L T rng n_eq 0 (init rb))) *
          magnetization L (sweeps L T rng (t + 1) (n_eq * (L * L))
            (sweeps L T rng n_eq 0 (init rb)))) = 0 := by
      apply Finset.sum_eq_zero
      intro t ht
      have hz := h t (Finset.mem_range.mp ht)
      unfold straj at hz
      rw [hz, mul_zero]
    simp only [derive, zero_add, hM2]
    norm_num [ndiv]
  · intro Ls temps n_eq n_samp rb rng hn
    refine ⟨_, simulate_ok Ls temps n_eq n_samp rb rng hn, ?_, ?_⟩
    · simp [List.enum_length]
    · intro r hr
      obtain ⟨li, _, rfl⟩ := List.mem_map.mp hr
      simp [List.enum_length]

/-- C6 witness: on the (pathological) 0×0 lattice every sampled
magnetization is zero, and the computed Binder cumulant is the non-finite
value. -/
theorem binder_degenerate_nan_witness :
    (∀ t, t < 1 → magnetization 0 (straj 0 2 rngOne rbTrue 0 t) = 0)
  ∧ (runConfigCore 0 2 0 1 rbTrue rngOne).binder = none := by
  have h : ∀ t, t < 1 → magnetization 0 (straj 0 2 rngOne rbTrue 0 t) = 0 :=
    fun t _ => magnetization_L0 _
  exact ⟨h, binder_degenerate_nan.1 0 2 0 1 rbTrue rngOne h⟩

end Ising
